import Mathlib

/-!
Verification development for the finance-ledger backend's double-entry core.

The Python source is shallowly embedded:
* a `decimal.Decimal` value is a pair of an integer mantissa and a decimal
  exponent (`value = mant / 10 ^ exp`), exactly the coefficient/exponent
  representation of the `decimal` module (finite values; the importer and
  repository only ever produce finite decimals);
* a normalized (quantized) amount is an integer number of cents (`ℤ`),
  mirroring `Decimal.quantize(Decimal("0.01"))` with the default
  ROUND_HALF_EVEN rounding of Python's `decimal` context;
* fallible repository operations return `Except RepoErr`; the Django
  `transaction.atomic()` rollback is modelled by the fact that an
  `Except.error` result carries no updated store.
-/

deriving instance DecidableEq for Except

/-- A finite `decimal.Decimal`: the represented value is
`mant / 10 ^ exp`. The representation is intentionally non-canonical
(`1.0` and `1.00` differ in `exp`), as in Python's `decimal` module. -/
structure Decimal where
  mant : ℤ
  exp : Nat
deriving DecidableEq

/-- The exact rational value of a decimal. -/
def Decimal.val (a : Decimal) : ℚ := mkRat a.mant (10 ^ a.exp)

/-- Exact decimal addition (Python `Decimal.__add__` is exact): align the
two operands on the larger exponent and add mantissas. -/
def Decimal.add (a b : Decimal) : Decimal :=
  let e := max a.exp b.exp
  ⟨a.mant * 10 ^ (e - a.exp) + b.mant * 10 ^ (e - b.exp), e⟩

/-- Python `sum(...)`/the repository's running total, starting from
`Decimal("0.00")`. -/
def sumDec (l : List Decimal) : Decimal := l.foldl Decimal.add ⟨0, 2⟩

/-- `Decimal.quantize(Decimal("0.01"))` with ROUND_HALF_EVEN (the default
decimal context rounding): the value of `a`, expressed in cents, rounded
half-to-even to an integer number of cents. For `exp ≤ 2` the value is an
exact multiple of a cent; otherwise the fractional cent part
`r / d ∈ [0, 1)` decides the direction, ties going to the even neighbour. -/
def quantizeCents (a : Decimal) : ℤ :=
  if a.exp ≤ 2 then a.mant * 10 ^ (2 - a.exp)
  else
    let d : ℤ := 10 ^ (a.exp - 2)
    let n : ℤ := a.mant.fdiv d
    let r : ℤ := a.mant.fmod d
    if 2 * r < d then n
    else if d < 2 * r then n + 1
    else if n % 2 = 0 then n else n + 1

/-- `DjangoTransactionsRepo._normalize_amount`: quantize the parsed decimal
to two places; the result is the exponent-2 decimal holding that many
cents. -/
def normalizeDecimal (a : Decimal) : Decimal := ⟨quantizeCents a, 2⟩

/-- The cents value underlying a normalized amount. -/
def normalizeAmount (a : Decimal) : ℤ := quantizeCents a

/-- Two-digit zero-padded rendering of `n < 100`, the fractional cents part
of `str(Decimal)` for an exponent-two decimal. -/
def twoDigits (n : Nat) : String :=
  if n < 10 then "0" ++ toString n else toString n

/-- `str(total)` for a `Decimal` with exponent `2` holding `n` cents:
sign, integer part, dot, two fractional digits (e.g. `15000 ↦ "150.00"`). -/
def centsRepr (n : ℤ) : String :=
  if n < 0 then "-" ++ toString (n.natAbs / 100) ++ "." ++ twoDigits (n.natAbs % 100)
  else "" ++ toString (n.toNat / 100) ++ "." ++ twoDigits (n.toNat % 100)

/-- Repository-layer exceptions (`repos.py`): `ValidationError` and
`NotFoundError`, both subclasses of `RepoError`. -/
inductive RepoErr where
  | validation (msg : String)
  | notFound (msg : String)
deriving DecidableEq

/-- `ledger.models.Account`: primary key, display name, account type and
owning ledger (the fields consulted by the embedded operations;
`parent` and `is_active` are never read by them). -/
structure Account where
  accountID : Nat
  name : String
  account_type : String
  ledgerID : Nat
deriving DecidableEq

/-- `ledger.models.Split`: one leg of a transaction. The amount is the
normalized decimal in cents. (The Django implementation converts the
quantized `Decimal` to `float` on storage; the in-memory stub stores the
exact `Decimal`. The exact value is what the balance check validates.) -/
structure Split where
  account : Nat
  amount : ℤ
deriving DecidableEq

/-- `ledger.models.Transaction` together with its splits and tag names. -/
structure Transaction where
  id : Nat
  ledger : Nat
  date : ℤ
  desc : String
  necessary : Bool
  tags : List String
  splits : List Split
deriving DecidableEq

/-- One split of the `splits` argument of `create`: a dict with an optional
`amount` entry (absence of the key is `none`) and optional
`account_id` / `account_name` entries. -/
structure SplitIn where
  amount : Option Decimal
  account_id : Option Nat
  account_name : Option String
deriving DecidableEq

/-- The relational store visible to the repositories: existing ledger ids,
accounts and transactions in primary-key (insertion) order, plus the next
auto-increment keys. -/
structure Store where
  ledgers : List Nat
  accounts : List Account
  nextAcct : Nat
  txs : List Transaction
  nextTx : Nat
deriving DecidableEq

/-- The amount-normalization loop of `DjangoTransactionsRepo.create`
(lines 134-141): reject a split missing the `amount` key, otherwise
normalize every amount in order. -/
def normalizeAmounts : List SplitIn → Except RepoErr (List ℤ)
  | [] => .ok []
  | ⟨none, _, _⟩ :: _ => .error (.validation "Missing amount in split")
  | ⟨some q, _, _⟩ :: rest => (normalizeAmounts rest).map (fun l => normalizeAmount q :: l)

/-- The split-resolution loop of `DjangoTransactionsRepo.create`
(lines 161-176): an `account_id` is looked up by primary key (any ledger),
else an `account_name` is looked up by name (first match, any ledger), else
the split is rejected. (The Python messages wrap offending values in single
quotes; the quotes are omitted here.) -/
def resolveSplits (st : Store) : List (SplitIn × ℤ) → Except RepoErr (List Split)
  | [] => .ok []
  | (⟨_, some aid, _⟩, amt) :: rest =>
    if st.accounts.any (fun a => a.accountID == aid) then
      (resolveSplits st rest).map (fun l => ⟨aid, amt⟩ :: l)
    else .error (.validation ("Account id " ++ toString aid ++ " not found"))
  | (⟨_, none, some nm⟩, amt) :: rest =>
    match st.accounts.find? (fun a => a.name == nm) with
    | some acc => (resolveSplits st rest).map (fun l => ⟨acc.accountID, amt⟩ :: l)
    | none => .error (.validation ("Account name not found: " ++ nm))
  | (⟨_, none, none⟩, _) :: _ =>
    .error (.validation "Each split requires account_id or account_name")

/-- `DjangoTransactionsRepo.create`: reject an empty splits list; normalize
all amounts and total them (the total of exponent-2 decimals re-quantized
is itself, so the balance check compares the summed cents with zero);
inside the atomic block, resolve the ledger, create the transaction row,
resolve every split and attach the tags. A raised error rolls the whole
block back, so only the `.ok` result carries an updated store. -/
def createTransaction (st : Store) (ledger_id : Nat) (date : ℤ) (description : String)
    (splits : List SplitIn) (tags : List String) (necessary : Bool) :
    Except RepoErr (Store × Transaction) :=
  if splits.length = 0 then
    .error (.validation "Transaction must have at least one split.")
  else
    match normalizeAmounts splits with
    | .error e => .error e
    | .ok amts =>
      if amts.sum = 0 then
        if ledger_id ∈ st.ledgers then
          match resolveSplits st (splits.zip amts) with
          | .error e => .error e
          | .ok sps =>
            let tx : Transaction :=
              ⟨st.nextTx, ledger_id, date, description, necessary, tags, sps⟩
            .ok ({ st with txs := st.txs ++ [tx], nextTx := st.nextTx + 1 }, tx)
        else .error (.validation ("Ledger id " ++ toString ledger_id ++ " not found"))
      else
        .error (.validation
          ("Transaction not balanced: splits sum to " ++ centsRepr amts.sum))

/-- The store as seen after a `create` call: on success the updated store
and the new transaction, on a raised error (rolled-back atomic block) the
unchanged store and no transaction. -/
def createOrKeep (st : Store) (ledger_id : Nat) (date : ℤ) (description : String)
    (splits : List SplitIn) (tags : List String) (necessary : Bool) :
    Store × Option Transaction :=
  match createTransaction st ledger_id date description splits tags necessary with
  | .ok (st', tx) => (st', some tx)
  | .error _ => (st, none)

/-- `DjangoAccountsRepo.get_by_name`: first account with the given name,
in primary-key order, with NO ledger scoping
(`Account.objects.filter(name=name).first()`). -/
def getByName (st : Store) (nm : String) : Option Account :=
  st.accounts.find? (fun a => a.name == nm)

/-- `DjangoAccountsRepo.create`: get-or-create the ledger row, then create
the account unconditionally (no uniqueness check). -/
def createAccount (st : Store) (nm : String) (ty : String) (ledger_id : Nat) :
    Store × Account :=
  let acc : Account := ⟨st.nextAcct, nm, ty, ledger_id⟩
  ({ st with
      ledgers := if ledger_id ∈ st.ledgers then st.ledgers else st.ledgers ++ [ledger_id],
      accounts := st.accounts ++ [acc],
      nextAcct := st.nextAcct + 1 }, acc)

/-- `import_service._ensure_account`: look the name up globally; reuse the
found account only when it belongs to the target ledger, otherwise (or when
absent) create a fresh account in the target ledger with the fallback
type. -/
def ensureAccount (st : Store) (nm : String) (fallback : String) (ledger_id : Nat) :
    Store × Account :=
  match getByName st nm with
  | some acc =>
    if acc.ledgerID = ledger_id then (st, acc)
    else createAccount st nm fallback ledger_id
  | none => createAccount st nm fallback ledger_id

/-- The descending-date ordering used by `InMemoryTransactionsRepo.list`:
`a` may come before `b` when `b.date ≤ a.date`. -/
def dateGe (a b : Transaction) : Prop := b.date ≤ a.date

instance : DecidableRel dateGe := fun a b => inferInstanceAs (Decidable (b.date ≤ a.date))

instance : IsTotal Transaction dateGe := ⟨fun a b => le_total b.date a.date⟩

instance : IsTrans Transaction dateGe := ⟨fun _ _ _ h h' => le_trans h' h⟩

/-- `InMemoryTransactionsRepo.list`: chain the four independently optional
filters over the stored transactions (insertion order), then
`sorted(key=lambda r: r.date, reverse=True)` — a stable descending sort,
modelled by Mathlib's stable insertion sort. (Python's falsy-filter checks
`if date_from: ...` are modelled by `Option`; the Django variant applies
the same inclusive bounds, any-split and exact-tag filters as querysets and
orders by `-date` alone.) -/
def listTransactions (st : Store) (date_from date_to : Option ℤ)
    (account_id : Option Nat) (tag : Option String) : List Transaction :=
  let r := st.txs
  let r := match date_from with
    | none => r
    | some d => r.filter (fun t => d ≤ t.date)
  let r := match date_to with
    | none => r
    | some d => r.filter (fun t => t.date ≤ d)
  let r := match account_id with
    | none => r
    | some a => r.filter (fun t => t.splits.any (fun s => s.account == a))
  let r := match tag with
    | none => r
    | some g => r.filter (fun t => t.tags.contains g)
  r.insertionSort dateGe

/-- Modelled from the spec: the declarative per-transaction filter — date
range inclusive at both ends, account filter satisfied when ANY split
references the account, tag filter an exact name match, each filter
independently optional. -/
def specFilter (date_from date_to : Option ℤ) (account_id : Option Nat)
    (tag : Option String) (t : Transaction) : Bool :=
  (match date_from with | none => true | some d => decide (d ≤ t.date)) &&
  (match date_to with | none => true | some d => decide (t.date ≤ d)) &&
  (match account_id with | none => true | some a => t.splits.any (fun s => s.account == a)) &&
  (match tag with | none => true | some g => t.tags.contains g)

/-- `ledger.models.Rule` as consumed by `_match_rule`: the YAML/DB rule
dict. `matcher_type` defaults to `"keyword"` when the key is absent;
a missing or empty `matcher` makes the rule inert. -/
structure Rule where
  matcher_type : Option String
  matcher : Option String
  category : String
  necessary : Bool
deriving DecidableEq

/-- Characterwise lowercasing, the model of Python `str.lower()`. -/
def lowerChars (s : String) : List Char := s.data.map Char.toLower

/-- `needle in haystack` for Python strings: contiguous-sublist test. -/
def isPrefixChars : List Char → List Char → Bool
  | [], _ => true
  | _ :: _, [] => false
  | a :: as, b :: bs => a == b && isPrefixChars as bs

/-- `needle in haystack` for Python strings (substring containment). -/
def occursIn (needle : List Char) : List Char → Bool
  | [] => needle.isEmpty
  | b :: rest => isPrefixChars needle (b :: rest) || occursIn needle rest

/-- Python `str.split(",")` on the character list: split at every comma,
keeping empty fields. -/
def splitComma : List Char → List (List Char)
  | [] => [[]]
  | c :: rest =>
    match splitComma rest with
    | [] => [[c]]
    | h :: t => if c = ',' then [] :: h :: t else (c :: h) :: t

/-- Python `str.strip()` on a character list: drop leading and trailing
whitespace. -/
def stripChars (l : List Char) : List Char :=
  ((l.dropWhile Char.isWhitespace).reverse.dropWhile Char.isWhitespace).reverse

/-- The keyword list of a keyword rule:
`[k.strip() for k in matcher.split(",") if k.strip()]`. -/
def keywordsOf (m : String) : List (List Char) :=
  ((splitComma m.data).map stripChars).filter (fun k => k ≠ [])

/-- Case-insensitive substring test `kw.lower() in text.lower()`. -/
def containsCI (text : String) (kw : List Char) : Bool :=
  occursIn (kw.map Char.toLower) (lowerChars text)

/-- `import_service._match_rule`, parameterized by the regex engine:
`research pat text` models `re.search(pat, text, re.IGNORECASE)` being a
match, and `revalid pat` models the pattern compiling without `re.error`.
Rules are scanned in order; a rule with a missing/empty matcher or an
unrecognized matcher type is passed over; a keyword rule fires when any of
its comma-separated keywords is a case-insensitive substring of the text;
a regex rule with an invalid pattern is skipped (the `except re.error:
continue` branch). -/
def matchRule (research : String → String → Bool) (revalid : String → Bool)
    (text : String) : List Rule → Option Rule
  | [] => none
  | r :: rest =>
    match r.matcher with
    | none => matchRule research revalid text rest
    | some m =>
      if m = "" then matchRule research revalid text rest
      else
        match r.matcher_type.getD "keyword" with
        | "keyword" =>
          if (keywordsOf m).any (fun kw => containsCI text kw) then some r
          else matchRule research revalid text rest
        | "regex" =>
          if revalid m then
            if research m text then some r
            else matchRule research revalid text rest
          else matchRule research revalid text rest
        | _ => matchRule research revalid text rest

/-- The per-rule predicate of the matcher, stated declaratively: what it
means for a single rule to fire on `text`. -/
def ruleFires (research : String → String → Bool) (revalid : String → Bool)
    (text : String) (r : Rule) : Bool :=
  match r.matcher with
  | none => false
  | some m =>
    if m = "" then false
    else
      match r.matcher_type.getD "keyword" with
      | "keyword" => (keywordsOf m).any (fun kw => containsCI text kw)
      | "regex" => revalid m && research m text
      | _ => false

/-- `s.replace(",", "")`: remove every comma. -/
def decomma (l : List Char) : List Char := l.filter (fun c => c ≠ ',')

/-- Digit-string value, most significant first. -/
def digitsVal (l : List Char) : ℕ :=
  l.foldl (fun a c => 10 * a + (c.toNat - 48)) 0

/-- All characters are ASCII digits. -/
def allDigits (l : List Char) : Bool := l.all (fun c => c.isDigit)

/-- The unsigned part of the `Decimal` numeric-string grammar restricted to
plain fixed-point literals: digits with at most one dot and at least one
digit (`"5"`, `"5."`, `".5"`; rejects `""`, `"."`, `"1.2.3"`). The value is
the digit string over `10 ^ fracdigits`. -/
def parseUnsigned (l : List Char) : Option Decimal :=
  let ip := l.takeWhile (fun c => c ≠ '.')
  let rest := l.dropWhile (fun c => c ≠ '.')
  match rest with
  | [] =>
    if allDigits ip && !ip.isEmpty then some ⟨digitsVal ip, 0⟩ else none
  | _ :: fp =>
    if allDigits ip && allDigits fp && !(ip.isEmpty && fp.isEmpty) then
      some ⟨digitsVal (ip ++ fp), fp.length⟩
    else none

/-- The `Decimal(str)` constructor on plain numeric strings: strip
whitespace (the constructor tolerates surrounding whitespace), then an
optional single sign followed by the unsigned fixed-point literal. -/
def parseDecimal (l0 : List Char) : Option Decimal :=
  let l := stripChars l0
  match l with
  | [] => none
  | c :: rest =>
    if c = '-' then (parseUnsigned rest).map (fun d => ⟨-d.mant, d.exp⟩)
    else if c = '+' then parseUnsigned rest
    else parseUnsigned (c :: rest)

/-- `import_service._parse_amount`: strip whitespace, remove every comma,
turn accounting parentheses into a leading minus, and convert with
`Decimal`. -/
def parseAmount (s : List Char) : Option Decimal :=
  let t := decomma (stripChars s)
  let u := if t.head? = some '(' ∧ t.getLast? = some ')'
           then '-' :: (t.drop 1).dropLast
           else t
  parseDecimal u

/-! ### SHA-256 (FIPS 180-4), the model of `hashlib.sha256`

Bytes are naturals below 256 and words naturals below `2 ^ 32`; overflow is
explicit modular arithmetic. -/

/-- Truncate to a 32-bit word. -/
def w32 (n : Nat) : Nat := n % 4294967296

/-- Right rotation of a 32-bit word by `k` places. -/
def rotr32 (k x : Nat) : Nat := x / 2 ^ k + x % 2 ^ k * 2 ^ (32 - k)

/-- Logical right shift of a 32-bit word. -/
def shr32 (k x : Nat) : Nat := x / 2 ^ k

/-- Bitwise complement of a 32-bit word. -/
def not32 (x : Nat) : Nat := 4294967295 - x

/-- SHA-256 `Ch(e, f, g)`. -/
def shaCh (e f g : Nat) : Nat := (e &&& f) ^^^ (not32 e &&& g)

/-- SHA-256 `Maj(a, b, c)`. -/
def shaMaj (a b c : Nat) : Nat := (a &&& b) ^^^ (a &&& c) ^^^ (b &&& c)

/-- SHA-256 `Σ₀`. -/
def bigSigma0 (x : Nat) : Nat := rotr32 2 x ^^^ rotr32 13 x ^^^ rotr32 22 x

/-- SHA-256 `Σ₁`. -/
def bigSigma1 (x : Nat) : Nat := rotr32 6 x ^^^ rotr32 11 x ^^^ rotr32 25 x

/-- SHA-256 `σ₀`. -/
def smallSigma0 (x : Nat) : Nat := rotr32 7 x ^^^ rotr32 18 x ^^^ shr32 3 x

/-- SHA-256 `σ₁`. -/
def smallSigma1 (x : Nat) : Nat := rotr32 17 x ^^^ rotr32 19 x ^^^ shr32 10 x

/-- The 64 SHA-256 round constants. -/
def shaK : List Nat :=
  [1116352408, 1899447441, 3049323471, 3921009573, 961987163, 1508970993, 2453635748, 2870763221,
   3624381080, 310598401, 607225278, 1426881987, 1925078388, 2162078206, 2614888103, 3248222580,
   3835390401, 4022224774, 264347078, 604807628, 770255983, 1249150122, 1555081692, 1996064986,
   2554220882, 2821834349, 2952996808, 3210313671, 3336571891, 3584528711, 113926993, 338241895,
   666307205, 773529912, 1294757372, 1396182291, 1695183700, 1986661051, 2177026350, 2456956037,
   2730485921, 2820302411, 3259730800, 3345764771, 3516065817, 3600352804, 4094571909, 275423344,
   430227734, 506948616, 659060556, 883997877, 958139571, 1322822218, 1537002063, 1747873779,
   1955562222, 2024104815, 2227730452, 2361852424, 2428436474, 2756734187, 3204031479, 3329325298]

/-- The eight working words of the compression function. -/
structure HState where
  a : Nat
  b : Nat
  c : Nat
  d : Nat
  e : Nat
  f : Nat
  g : Nat
  h : Nat
deriving DecidableEq

/-- The SHA-256 initial hash value. -/
def initHState : HState :=
  ⟨1779033703, 3144134277, 1013904242, 2773480762,
   1359893119, 2600822924, 528734635, 1541459225⟩

/-- One compression round with the round constant paired to its schedule
word. -/
def shaRound (st : HState) (kw : Nat × Nat) : HState :=
  let t1 := w32 (st.h + bigSigma1 st.e + shaCh st.e st.f st.g + kw.1 + kw.2)
  let t2 := w32 (bigSigma0 st.a + shaMaj st.a st.b st.c)
  ⟨w32 (t1 + t2), st.a, st.b, st.c, w32 (st.d + t1), st.e, st.f, st.g⟩

/-- Big-endian 4-byte groups to 32-bit words. -/
def bytesToWords : List Nat → List Nat
  | b0 :: b1 :: b2 :: b3 :: rest =>
    (((b0 * 256 + b1) * 256 + b2) * 256 + b3) :: bytesToWords rest
  | _ => []

/-- Extend the 16 block words to the 64-entry message schedule
(`k` remaining extension steps). -/
def extendSchedule : Nat → List Nat → List Nat
  | 0, ws => ws
  | k + 1, ws =>
    let i := ws.length
    extendSchedule k (ws ++
      [w32 (smallSigma1 (ws.getD (i - 2) 0) + ws.getD (i - 7) 0 +
            smallSigma0 (ws.getD (i - 15) 0) + ws.getD (i - 16) 0)])

/-- Process one 64-byte block. -/
def processBlock (hs : HState) (block : List Nat) : HState :=
  let ws := extendSchedule 48 (bytesToWords block)
  let st := (shaK.zip ws).foldl shaRound hs
  ⟨w32 (hs.a + st.a), w32 (hs.b + st.b), w32 (hs.c + st.c), w32 (hs.d + st.d),
   w32 (hs.e + st.e), w32 (hs.f + st.f), w32 (hs.g + st.g), w32 (hs.h + st.h)⟩

/-- The bit length of the message as eight big-endian bytes. -/
def lenBytes (n : Nat) : List Nat :=
  [n / 2 ^ 56 % 256, n / 2 ^ 48 % 256, n / 2 ^ 40 % 256, n / 2 ^ 32 % 256,
   n / 2 ^ 24 % 256, n / 2 ^ 16 % 256, n / 2 ^ 8 % 256, n % 256]

/-- SHA-256 padding: `128`, zeros to 56 mod 64, then the 64-bit bit
length. -/
def padMessage (msg : List Nat) : List Nat :=
  let L := msg.length
  msg ++ [128] ++ List.replicate ((64 - (L + 9) % 64) % 64) 0 ++ lenBytes (8 * L)

/-- Split a byte list into 64-byte blocks; the first argument is
recursion fuel (any bound on the block count). -/
def chunksGo : Nat → List Nat → List (List Nat)
  | 0, _ => []
  | _ + 1, [] => []
  | fuel + 1, a :: rest => (a :: rest).take 64 :: chunksGo fuel ((a :: rest).drop 64)

/-- Split a (padded) byte list into 64-byte blocks. -/
def chunks64 (l : List Nat) : List (List Nat) := chunksGo l.length l

/-- A 32-bit word as four big-endian bytes. -/
def wordBytes (w : Nat) : List Nat :=
  [w / 2 ^ 24 % 256, w / 2 ^ 16 % 256, w / 2 ^ 8 % 256, w % 256]

/-- `hashlib.sha256(...).digest()`: the 32-byte digest of a byte string. -/
def sha256 (msg : List Nat) : List Nat :=
  let hs := (chunks64 (padMessage msg)).foldl processBlock initHState
  wordBytes hs.a ++ wordBytes hs.b ++ wordBytes hs.c ++ wordBytes hs.d ++
  wordBytes hs.e ++ wordBytes hs.f ++ wordBytes hs.g ++ wordBytes hs.h

/-- The byte string `b"::RULES::"`. -/
def rulesMarker : List Nat := [58, 58, 82, 85, 76, 69, 83, 58, 58]

/-- The byte string fed to SHA-256 by `_compute_hash`: the file bytes,
followed — only when rules bytes are present and non-empty (`if
rules_bytes:` is a truthiness test) — by the `b"::RULES::"` marker and the
rules bytes. -/
def hashInput (fileBytes : List Nat) (rulesBytes : Option (List Nat)) : List Nat :=
  match rulesBytes with
  | none => fileBytes
  | some r => if r = [] then fileBytes else fileBytes ++ rulesMarker ++ r

/-- `import_service._compute_hash` (the digest underlying the hex
string). -/
def computeHash (fileBytes : List Nat) (rulesBytes : Option (List Nat)) : List Nat :=
  sha256 (hashInput fileBytes rulesBytes)

/-- `ledger.models.ImportRecord` (the fields the dedup decision reads):
the unique content hash and the prior imported count. -/
structure ImportRecord where
  file_hash : List Nat
  imported_count : Nat
deriving DecidableEq

/-- The persistent import state: the `ImportRecord` rows and the ledger
store the import writes transactions into. -/
structure ImportState where
  recs : List ImportRecord
  store : Store
deriving DecidableEq

/-- `ImportRecord.objects.filter(file_hash=h).first()`. -/
def findRecord (recs : List ImportRecord) (h : List Nat) : Option ImportRecord :=
  recs.find? (fun r => r.file_hash == h)

/-- `existing.delete()`: remove the found (first matching) record. -/
def deleteRecord (recs : List ImportRecord) (h : List Nat) : List ImportRecord :=
  recs.eraseP (fun r => r.file_hash == h)

/-- Outcome of the idempotency head of `ImportService.import_csv`
(lines 131-150): either the early `CSVImportResult` return — prior count,
`skipped=True`, and the state untouched — or the decision to run the
pipeline against the possibly-pruned record list. -/
inductive ImportHead where
  | skipped (created_count : Nat) (skip : Bool) (state : ImportState)
  | rerun (state : ImportState)
deriving DecidableEq

/-- The idempotency check of `ImportService.import_csv`: hash the inputs;
when a record with that hash exists, a forced import deletes it and
re-runs, a prior count of at least one returns immediately as skipped with
the prior count, and a prior count of zero deletes the stale record and
re-runs; with no matching record the import simply runs. -/
def importCsvHead (s : ImportState) (fileBytes : List Nat)
    (rulesBytes : Option (List Nat)) (force : Bool) : ImportHead :=
  let h := computeHash fileBytes rulesBytes
  match findRecord s.recs h with
  | none => .rerun s
  | some r =>
    if force then .rerun { s with recs := deleteRecord s.recs h }
    else if 0 < r.imported_count then .skipped r.imported_count true s
    else .rerun { s with recs := deleteRecord s.recs h }

/-- A one-ledger, one-account store used by the concrete scenarios. -/
def cstore : Store := ⟨[1], [⟨1, "Cash", "ASSET", 1⟩], 2, [], 1⟩

/-- Modelled from the spec: the post-summation quantization discipline the
claim attributes to the balance check — quantize the sum of the raw split
amounts and compare with zero. -/
def balancedPostSum (raws : List Decimal) : Prop := quantizeCents (sumDec raws) = 0

/-- An unsigned plain numeral: non-empty, only digits and dots. -/
def isNumeralChars (l : List Char) : Bool :=
  !l.isEmpty && l.all (fun c => c.isDigit || c == '.')

/-- Two same-date transactions in different ledgers, inserted as ids 1 then
2. -/
def t1x : Transaction := ⟨1, 1, 5, "first", true, [], [⟨1, 0⟩]⟩

/-- The later-inserted, same-date transaction, in ledger 2. -/
def t2x : Transaction := ⟨2, 2, 5, "second", false, ["food"], []⟩

/-- A store holding `t1x` then `t2x`. -/
def st9 : Store := ⟨[1, 2], [⟨1, "Cash", "ASSET", 1⟩], 2, [t1x, t2x], 3⟩

/-- Bool check that a single split's account reference resolves against the
store (the claim-level notion of a resolvable reference). -/
def resolvesB (st : Store) : SplitIn → Bool
  | ⟨_, some aid, _⟩ => st.accounts.any (fun a => a.accountID == aid)
  | ⟨_, none, some nm⟩ => (st.accounts.find? (fun a => a.name == nm)).isSome
  | ⟨_, none, none⟩ => false

/-! ### Helper lemmas about `create` -/

theorem normalizeAmounts_length (splits : List SplitIn) (amts : List ℤ)
    (h : normalizeAmounts splits = .ok amts) : amts.length = splits.length := by
  induction splits generalizing amts with
  | nil => cases h; rfl
  | cons s rest ih =>
    obtain ⟨qa, qid, qnm⟩ := s
    cases qa with
    | none => cases h
    | some q =>
      unfold normalizeAmounts at h
      cases hr : normalizeAmounts rest with
      | error e => rw [hr] at h; cases h
      | ok l => rw [hr] at h; cases h; simp [ih l hr]

theorem normalizeAmounts_error (splits : List SplitIn) (e : RepoErr)
    (h : normalizeAmounts splits = .error e) : ∃ m, e = .validation m := by
  induction splits with
  | nil => cases h
  | cons s rest ih =>
    obtain ⟨qa, qid, qnm⟩ := s
    cases qa with
    | none => cases h; exact ⟨_, rfl⟩
    | some q =>
      unfold normalizeAmounts at h
      cases hr : normalizeAmounts rest with
      | error e1 => rw [hr] at h; cases h; exact ih hr
      | ok l => rw [hr] at h; cases h

theorem resolveSplits_error (st : Store) (l : List (SplitIn × ℤ)) (e : RepoErr)
    (h : resolveSplits st l = .error e) : ∃ m, e = .validation m := by
  induction l with
  | nil => cases h
  | cons p rest ih =>
    obtain ⟨⟨qa, qid, qnm⟩, amt⟩ := p
    cases qid with
    | some aid =>
      unfold resolveSplits at h
      by_cases ha : (st.accounts.any fun a => a.accountID == aid) = true
      · rw [if_pos ha] at h
        cases hr : resolveSplits st rest with
        | error e1 => rw [hr] at h; cases h; exact ih hr
        | ok sps => rw [hr] at h; cases h
      · rw [if_neg ha] at h; cases h; exact ⟨_, rfl⟩
    | none =>
      cases qnm with
      | some nm =>
        unfold resolveSplits at h
        cases hf : st.accounts.find? (fun a => a.name == nm) with
        | some acc =>
          rw [hf] at h
          cases hr : resolveSplits st rest with
          | error e1 => rw [hr] at h; cases h; exact ih hr
          | ok sps => rw [hr] at h; cases h
        | none => rw [hf] at h; cases h; exact ⟨_, rfl⟩
      | none => cases h; exact ⟨_, rfl⟩

theorem resolveSplits_amounts (st : Store) (l : List (SplitIn × ℤ)) (sps : List Split)
    (h : resolveSplits st l = .ok sps) : sps.map Split.amount = l.map Prod.snd := by
  induction l generalizing sps with
  | nil => cases h; rfl
  | cons p rest ih =>
    obtain ⟨⟨qa, qid, qnm⟩, amt⟩ := p
    cases qid with
    | some aid =>
      unfold resolveSplits at h
      by_cases ha : (st.accounts.any fun a => a.accountID == aid) = true
      · rw [if_pos ha] at h
        cases hr : resolveSplits st rest with
        | error e1 => rw [hr] at h; cases h
        | ok sps1 => rw [hr] at h; cases h; simp [ih sps1 hr]
      · rw [if_neg ha] at h; cases h
    | none =>
      cases qnm with
      | some nm =>
        unfold resolveSplits at h
        cases hf : st.accounts.find? (fun a => a.name == nm) with
        | some acc =>
          rw [hf] at h
          cases hr : resolveSplits st rest with
          | error e1 => rw [hr] at h; cases h
          | ok sps1 => rw [hr] at h; cases h; simp [ih sps1 hr]
        | none => rw [hf] at h; cases h
      | none => cases h

theorem resolveSplits_resolves (st : Store) (l : List (SplitIn × ℤ)) (sps : List Split)
    (h : resolveSplits st l = .ok sps) : ∀ p ∈ l, resolvesB st p.1 = true := by
  induction l generalizing sps with
  | nil => intro p hp; cases hp
  | cons p rest ih =>
    obtain ⟨⟨qa, qid, qnm⟩, amt⟩ := p
    intro p1 hp1
    cases qid with
    | some aid =>
      unfold resolveSplits at h
      by_cases ha : (st.accounts.any fun a => a.accountID == aid) = true
      · rw [if_pos ha] at h
        cases hr : resolveSplits st rest with
        | error e1 => rw [hr] at h; cases h
        | ok sps1 =>
          rcases List.mem_cons.mp hp1 with rfl | hmem
          · simpa [resolvesB] using ha
          · exact ih sps1 hr p1 hmem
      · rw [if_neg ha] at h; cases h
    | none =>
      cases qnm with
      | some nm =>
        unfold resolveSplits at h
        cases hf : st.accounts.find? (fun a => a.name == nm) with
        | some acc =>
          rw [hf] at h
          cases hr : resolveSplits st rest with
          | error e1 => rw [hr] at h; cases h
          | ok sps1 =>
            rcases List.mem_cons.mp hp1 with rfl | hmem
            · simp [resolvesB, hf]
            · exact ih sps1 hr p1 hmem
        | none => rw [hf] at h; cases h
      | none => cases h

theorem resolveSplits_total (st : Store) (l : List (SplitIn × ℤ))
    (h : ∀ p ∈ l, resolvesB st p.1 = true) : ∃ sps, resolveSplits st l = .ok sps := by
  induction l with
  | nil => exact ⟨[], rfl⟩
  | cons p rest ih =>
    obtain ⟨sps1, hr⟩ := ih (fun q hq => h q (List.mem_cons_of_mem p hq))
    obtain ⟨⟨qa, qid, qnm⟩, amt⟩ := p
    have hres := h (⟨qa, qid, qnm⟩, amt) (List.mem_cons_self _ _)
    cases qid with
    | some aid =>
      have ha : (st.accounts.any fun a => a.accountID == aid) = true := by
        simpa [resolvesB] using hres
      refine ⟨⟨aid, amt⟩ :: sps1, ?_⟩
      unfold resolveSplits
      rw [if_pos ha, hr]
      rfl
    | none =>
      cases qnm with
      | some nm =>
        cases hf : st.accounts.find? (fun a => a.name == nm) with
        | some acc =>
          refine ⟨⟨acc.accountID, amt⟩ :: sps1, ?_⟩
          unfold resolveSplits
          rw [hf, hr]
          rfl
        | none => simp [resolvesB, hf] at hres
      | none => simp [resolvesB] at hres

theorem createTransaction_ok (st : Store) (l : Nat) (d : ℤ) (ds : String)
    (splits : List SplitIn) (tags : List String) (nec : Bool) (st1 : Store)
    (tx : Transaction)
    (h : createTransaction st l d ds splits tags nec = .ok (st1, tx)) :
    ∃ amts sps, normalizeAmounts splits = .ok amts ∧ amts.sum = 0 ∧ l ∈ st.ledgers ∧
      resolveSplits st (splits.zip amts) = .ok sps ∧
      tx = ⟨st.nextTx, l, d, ds, nec, tags, sps⟩ ∧
      st1 = { st with txs := st.txs ++ [tx], nextTx := st.nextTx + 1 } := by
  unfold createTransaction at h
  split at h
  · cases h
  · split at h
    next e heq => cases h
    next amts heq =>
      split at h
      next hsum =>
        split at h
        next hl =>
          split at h
          next e heq2 => cases h
          next sps heq2 =>
            cases h
            exact ⟨amts, sps, heq, hsum, hl, heq2, rfl, rfl⟩
        next hl => cases h
      next hsum => cases h

theorem createTransaction_unbalanced (st : Store) (l : Nat) (d : ℤ) (ds : String)
    (splits : List SplitIn) (tags : List String) (nec : Bool) (amts : List ℤ)
    (hn : normalizeAmounts splits = .ok amts) (hs : amts.sum ≠ 0) :
    createTransaction st l d ds splits tags nec =
      .error (.validation ("Transaction not balanced: splits sum to " ++ centsRepr amts.sum)) := by
  have h0 : ¬ splits.length = 0 := by
    intro h0
    rw [List.length_eq_zero] at h0
    subst h0
    cases hn
    exact hs rfl
  unfold createTransaction
  simp [h0, hn, hs]

theorem createTransaction_error_validation (st : Store) (l : Nat) (d : ℤ) (ds : String)
    (splits : List SplitIn) (tags : List String) (nec : Bool) (e : RepoErr)
    (h : createTransaction st l d ds splits tags nec = .error e) :
    ∃ m, e = .validation m := by
  unfold createTransaction at h
  split at h
  · cases h; exact ⟨_, rfl⟩
  · split at h
    next e1 heq => cases h; exact normalizeAmounts_error splits _ heq
    next amts heq =>
      split at h
      next hsum =>
        split at h
        next hl =>
          split at h
          next e1 heq2 => cases h; exact resolveSplits_error st _ _ heq2
          next sps heq2 => cases h
        next hl => cases h; exact ⟨_, rfl⟩
      next hsum => cases h; exact ⟨_, rfl⟩

/-- C1: a successfully created transaction's split amounts sum (in cents,
hence quantized to two decimals) to exactly zero; and whenever the
normalized amounts of the requested splits sum to a non-zero total, the
call fails with a `ValidationError` whose message contains the rendered
non-zero sum, and the store is left unchanged with no transaction
persisted. -/
theorem c1_balance_invariant (st : Store) (l : Nat) (d : ℤ) (ds : String)
    (splits : List SplitIn) (tags : List String) (nec : Bool) :
    (∀ st1 tx, createTransaction st l d ds splits tags nec = .ok (st1, tx) →
      (tx.splits.map Split.amount).sum = 0) ∧
    (∀ amts, normalizeAmounts splits = .ok amts → amts.sum ≠ 0 →
      (∃ p s, createTransaction st l d ds splits tags nec =
        .error (.validation (p ++ centsRepr amts.sum ++ s))) ∧
      createOrKeep st l d ds splits tags nec = (st, none)) := by
  constructor
  · intro st1 tx h
    obtain ⟨amts, sps, hn, hs, _, hr, htx, _⟩ :=
      createTransaction_ok st l d ds splits tags nec st1 tx h
    subst htx
    have h1 := resolveSplits_amounts st _ sps hr
    have h2 : (splits.zip amts).map Prod.snd = amts :=
      List.map_snd_zip _ _ (le_of_eq (normalizeAmounts_length splits amts hn))
    show (sps.map Split.amount).sum = 0
    rw [h1, h2, hs]
  · intro amts hn hs
    have he := createTransaction_unbalanced st l d ds splits tags nec amts hn hs
    refine ⟨⟨"Transaction not balanced: splits sum to ", "", ?_⟩, ?_⟩
    · rw [he, String.append_empty]
    · unfold createOrKeep
      rw [he]

/-- Witness for C1 at Scenario 3's input: splits of `100.00` and `50.00`
(with a resolvable account) are rejected with a message containing
`150.00`, the store is unchanged, and the rendered sum is `"150.00"`. -/
theorem c1_balance_invariant_witness :
    centsRepr 15000 = "150.00" ∧
    normalizeAmounts
      [⟨some ⟨10000, 2⟩, some 1, none⟩, ⟨some ⟨5000, 2⟩, some 1, none⟩] = .ok [10000, 5000] ∧
    (∃ p s, createTransaction ⟨[1], [⟨1, "Cash", "ASSET", 1⟩], 2, [], 1⟩ 1 0 "t"
        [⟨some ⟨10000, 2⟩, some 1, none⟩, ⟨some ⟨5000, 2⟩, some 1, none⟩] [] true =
      .error (.validation (p ++ centsRepr 15000 ++ s))) ∧
    createOrKeep ⟨[1], [⟨1, "Cash", "ASSET", 1⟩], 2, [], 1⟩ 1 0 "t"
        [⟨some ⟨10000, 2⟩, some 1, none⟩, ⟨some ⟨5000, 2⟩, some 1, none⟩] [] true =
      (⟨[1], [⟨1, "Cash", "ASSET", 1⟩], 2, [], 1⟩, none) := by
  refine ⟨by decide, by decide, ?_⟩
  have h := (c1_balance_invariant ⟨[1], [⟨1, "Cash", "ASSET", 1⟩], 2, [], 1⟩ 1 0 "t"
      [⟨some ⟨10000, 2⟩, some 1, none⟩, ⟨some ⟨5000, 2⟩, some 1, none⟩] [] true).2
      [10000, 5000] (by decide) (by decide)
  exact ⟨h.1, h.2⟩

theorem createTransaction_ok_of (st : Store) (l : Nat) (d : ℤ) (ds : String)
    (splits : List SplitIn) (tags : List String) (nec : Bool) (amts : List ℤ)
    (sps : List Split) (h0 : splits ≠ []) (hn : normalizeAmounts splits = .ok amts)
    (hs : amts.sum = 0) (hl : l ∈ st.ledgers)
    (hr : resolveSplits st (splits.zip amts) = .ok sps) :
    createTransaction st l d ds splits tags nec =
      .ok ({ st with txs := st.txs ++ [⟨st.nextTx, l, d, ds, nec, tags, sps⟩], nextTx := st.nextTx + 1 }, ⟨st.nextTx, l, d, ds, nec, tags, sps⟩) := by
  unfold createTransaction
  simp [List.length_eq_zero, h0, hn, hs, hl, hr]

/-- C2 counterexample: the Ledger Transaction Store accepts a single-element
splits list whose sole amount quantizes to `0.00` — `create` only rejects an
EMPTY splits collection (`len(splits) == 0`), so this call persists a
one-split transaction instead of failing as the claim states. -/
theorem c2_min_splits_counterexample :
    createTransaction cstore 1 0 "solo" [⟨some ⟨0, 2⟩, some 1, none⟩] [] true =
      .ok (⟨[1], [⟨1, "Cash", "ASSET", 1⟩], 2, [⟨1, 1, 0, "solo", true, [], [⟨1, 0⟩]⟩], 2⟩,
           ⟨1, 1, 0, "solo", true, [], [⟨1, 0⟩]⟩) := by decide

/-- C2 (amended): `create` rejects exactly the empty splits collection with
a `ValidationError`, persisting nothing; a single-element splits list is
NOT rejected by the size check — when its sole amount quantizes to `0.00`
and its account reference resolves, the transaction is created and
persisted. -/
theorem c2_min_splits_amended (st : Store) (l : Nat) (d : ℤ) (ds : String)
    (tags : List String) (nec : Bool) :
    (createTransaction st l d ds [] tags nec =
        .error (.validation "Transaction must have at least one split.") ∧
      createOrKeep st l d ds [] tags nec = (st, none)) ∧
    (∀ (q : Decimal) (aid : Nat), quantizeCents q = 0 →
      (st.accounts.any fun a => a.accountID == aid) = true → l ∈ st.ledgers →
      createTransaction st l d ds [⟨some q, some aid, none⟩] tags nec =
        .ok ({ st with txs := st.txs ++ [⟨st.nextTx, l, d, ds, nec, tags, [⟨aid, 0⟩]⟩], nextTx := st.nextTx + 1 }, ⟨st.nextTx, l, d, ds, nec, tags, [⟨aid, 0⟩]⟩)) := by
  refine ⟨⟨rfl, rfl⟩, ?_⟩
  intro q aid hq ha hl
  have hn : normalizeAmounts [⟨some q, some aid, none⟩] = .ok [0] := by
    simp [normalizeAmounts, normalizeAmount, hq, Except.map]
  have hr : resolveSplits st ([(⟨some q, some aid, none⟩ : SplitIn)].zip [0]) =
      .ok [⟨aid, 0⟩] := by
    simp [List.zip, resolveSplits, ha, Except.map]
  exact createTransaction_ok_of st l d ds _ tags nec [0] [⟨aid, 0⟩]
    (by simp) hn (by simp) hl hr

/-- Witness for the amended C2 at a concrete store. -/
theorem c2_min_splits_amended_witness :
    quantizeCents ⟨0, 2⟩ = 0 ∧
    (cstore.accounts.any fun a => a.accountID == 1) = true ∧
    1 ∈ cstore.ledgers ∧
    createTransaction cstore 1 0 "w" [⟨some ⟨0, 2⟩, some 1, none⟩] [] true =
      .ok ({ cstore with txs := cstore.txs ++ [⟨cstore.nextTx, 1, 0, "w", true, [], [⟨1, 0⟩]⟩], nextTx := cstore.nextTx + 1 }, ⟨cstore.nextTx, 1, 0, "w", true, [], [⟨1, 0⟩]⟩) :=
  ⟨by decide, by decide, by decide,
   (c2_min_splits_amended cstore 1 0 "w" [] true).2 ⟨0, 2⟩ 1
     (by decide) (by decide) (by decide)⟩

theorem normalizeAmounts_of_amounts (splits : List SplitIn) (raws : List Decimal)
    (h : splits.map SplitIn.amount = raws.map some) :
    normalizeAmounts splits = .ok (raws.map quantizeCents) := by
  induction splits generalizing raws with
  | nil =>
    cases raws with
    | nil => rfl
    | cons r rs => simp at h
  | cons s rest ih =>
    cases raws with
    | nil => simp at h
    | cons r rs =>
      simp only [List.map_cons, List.cons.injEq] at h
      obtain ⟨h1, h2⟩ := h
      obtain ⟨qa, qid, qnm⟩ := s
      cases qa with
      | none => cases h1
      | some q =>
        cases h1
        simp [normalizeAmounts, normalizeAmount, ih rs h2, Except.map]

/-- C3 counterexample: two raw splits of `0.003` each are ACCEPTED by
`create` (each amount quantizes to `0.00`, so the per-split-quantized total
is zero), yet the post-summation discipline the claim describes rejects
them (`quantize(0.006) = 0.01 ≠ 0.00`): the acceptance condition is not
`quantize(sum(raw amounts)) == 0.00`, and the two disciplines diverge on an
accepted input. -/
theorem c3_quantization_counterexample :
    (createTransaction cstore 1 0 "x"
        [⟨some ⟨3, 3⟩, some 1, none⟩, ⟨some ⟨3, 3⟩, some 1, none⟩] [] true).isOk = true ∧
    ¬ balancedPostSum [⟨3, 3⟩, ⟨3, 3⟩] := by
  constructor
  · decide
  · unfold balancedPostSum
    decide

/-- C3 (amended): quantization is applied to EACH split amount before
summation (`_normalize_amount` quantizes per split, the total of the
already-quantized amounts is re-quantized only trivially): under the
side-conditions that every split carries an amount, the list is non-empty,
the ledger exists and every reference resolves, `create` succeeds exactly
when the sum of the per-split-quantized amounts is zero — a condition that
can diverge from post-summation quantization. -/
theorem c3_quantization_amended (st : Store) (l : Nat) (d : ℤ) (ds : String)
    (tags : List String) (nec : Bool) (splits : List SplitIn) (raws : List Decimal)
    (hraw : splits.map SplitIn.amount = raws.map some)
    (hne : splits ≠ []) (hl : l ∈ st.ledgers)
    (hres : ∀ s ∈ splits, resolvesB st s = true) :
    normalizeAmounts splits = .ok (raws.map quantizeCents) ∧
    ((createTransaction st l d ds splits tags nec).isOk = true ↔
      (raws.map quantizeCents).sum = 0) := by
  have hn := normalizeAmounts_of_amounts splits raws hraw
  refine ⟨hn, ?_, ?_⟩
  · intro hok
    cases hc : createTransaction st l d ds splits tags nec with
    | error e => rw [hc] at hok; simp [Except.isOk, Except.toBool] at hok
    | ok p =>
      obtain ⟨amts, sps, hn2, hs, _, _, _, _⟩ :=
        createTransaction_ok st l d ds splits tags nec p.1 p.2 (by rw [hc])
      rw [hn] at hn2
      cases hn2
      exact hs
  · intro hs
    have hzip : ∀ p ∈ splits.zip (raws.map quantizeCents), resolvesB st p.1 = true := by
      intro p hp
      exact hres p.1 (List.of_mem_zip hp).1
    obtain ⟨sps, hr⟩ := resolveSplits_total st _ hzip
    rw [createTransaction_ok_of st l d ds splits tags nec _ sps hne hn hs hl hr]
    rfl

/-- Witness for the amended C3: splits of `1.00` and `-1.00` on a concrete
store satisfy the side-conditions; `create` succeeds and the per-split
quantized sum is zero. -/
theorem c3_quantization_amended_witness :
    ([⟨some ⟨100, 2⟩, some 1, none⟩, ⟨some ⟨-100, 2⟩, some 1, none⟩].map SplitIn.amount =
      [(⟨100, 2⟩ : Decimal), ⟨-100, 2⟩].map some) ∧
    normalizeAmounts [⟨some ⟨100, 2⟩, some 1, none⟩, ⟨some ⟨-100, 2⟩, some 1, none⟩] =
      .ok ([(⟨100, 2⟩ : Decimal), ⟨-100, 2⟩].map quantizeCents) ∧
    ((createTransaction cstore 1 0 "w"
        [⟨some ⟨100, 2⟩, some 1, none⟩, ⟨some ⟨-100, 2⟩, some 1, none⟩] [] true).isOk = true ↔
      (([(⟨100, 2⟩ : Decimal), ⟨-100, 2⟩].map quantizeCents).sum = 0)) := by
  have h := c3_quantization_amended cstore 1 0 "w" [] true
    [⟨some ⟨100, 2⟩, some 1, none⟩, ⟨some ⟨-100, 2⟩, some 1, none⟩]
    [⟨100, 2⟩, ⟨-100, 2⟩] (by decide) (by decide) (by decide) (by decide)
  exact ⟨by decide, h.1, h.2⟩

theorem mem_zip_left (l1 : List SplitIn) (l2 : List ℤ) (hlen : l1.length ≤ l2.length)
    (a : SplitIn) (ha : a ∈ l1) : ∃ b, (a, b) ∈ l1.zip l2 := by
  induction l1 generalizing l2 with
  | nil => cases ha
  | cons x rest ih =>
    cases l2 with
    | nil => simp at hlen
    | cons y ys =>
      rcases List.mem_cons.mp ha with rfl | hmem
      · exact ⟨y, by simp⟩
      · obtain ⟨b, hb⟩ := ih ys (by simpa using hlen) hmem
        exact ⟨b, List.mem_cons_of_mem _ hb⟩

/-- C4 counterexample: a split whose `account_name` resolves to no account
makes `create` fail with a `ValidationError` — NOT with the `NotFoundError`
the claim (and `repos.py`'s own `NotFoundError` class) would suggest: the
create path never raises `NotFoundError`. -/
theorem c4_notfound_counterexample :
    createTransaction cstore 1 0 "x"
        [⟨some ⟨10000, 2⟩, none, some "Nope"⟩, ⟨some ⟨-10000, 2⟩, some 1, none⟩] [] true =
      .error (.validation "Account name not found: Nope") ∧
    ∀ m, createTransaction cstore 1 0 "x"
        [⟨some ⟨10000, 2⟩, none, some "Nope"⟩, ⟨some ⟨-10000, 2⟩, some 1, none⟩] [] true ≠
      .error (.notFound m) := by
  have h0 : createTransaction cstore 1 0 "x"
      [⟨some ⟨10000, 2⟩, none, some "Nope"⟩, ⟨some ⟨-10000, 2⟩, some 1, none⟩] [] true =
      .error (.validation "Account name not found: Nope") := by decide
  refine ⟨h0, fun m hm => ?_⟩
  rw [h0] at hm
  simp at hm

/-- C4 (amended): whenever some split's account reference fails to resolve,
`create` raises a `ValidationError` (every error raised by `create` is a
`ValidationError`), and — by the atomic rollback — neither the transaction
nor any split nor any tag attachment is persisted: the store is unchanged. -/
theorem c4_unresolved_amended (st : Store) (l : Nat) (d : ℤ) (ds : String)
    (splits : List SplitIn) (tags : List String) (nec : Bool)
    (h : ∃ s ∈ splits, resolvesB st s = false) :
    (∃ m, createTransaction st l d ds splits tags nec = .error (.validation m)) ∧
    createOrKeep st l d ds splits tags nec = (st, none) := by
  have hnotok : ∀ p : Store × Transaction,
      createTransaction st l d ds splits tags nec ≠ .ok p := by
    intro p hok
    obtain ⟨s, hmem, hres⟩ := h
    obtain ⟨amts, sps, hn, _, _, hr, _, _⟩ :=
      createTransaction_ok st l d ds splits tags nec p.1 p.2 (by rw [hok])
    have hlen : splits.length ≤ amts.length :=
      le_of_eq (normalizeAmounts_length splits amts hn).symm
    obtain ⟨b, hb⟩ := mem_zip_left splits amts hlen s hmem
    have hp := resolveSplits_resolves st _ sps hr (s, b) hb
    rw [hres] at hp
    cases hp
  cases hc : createTransaction st l d ds splits tags nec with
  | ok p => exact absurd hc (hnotok p)
  | error e =>
    obtain ⟨m, rfl⟩ := createTransaction_error_validation st l d ds splits tags nec e hc
    refine ⟨⟨m, rfl⟩, ?_⟩
    unfold createOrKeep
    rw [hc]

/-- Witness for the amended C4 at a concrete unresolvable reference. -/
theorem c4_unresolved_amended_witness :
    (∃ s ∈ [(⟨some ⟨10000, 2⟩, none, some "Nope"⟩ : SplitIn),
            ⟨some ⟨-10000, 2⟩, some 1, none⟩], resolvesB cstore s = false) ∧
    (∃ m, createTransaction cstore 1 0 "x"
        [⟨some ⟨10000, 2⟩, none, some "Nope"⟩, ⟨some ⟨-10000, 2⟩, some 1, none⟩] [] true =
      .error (.validation m)) ∧
    createOrKeep cstore 1 0 "x"
        [⟨some ⟨10000, 2⟩, none, some "Nope"⟩, ⟨some ⟨-10000, 2⟩, some 1, none⟩] [] true =
      (cstore, none) := by
  have h := c4_unresolved_amended cstore 1 0 "x"
    [⟨some ⟨10000, 2⟩, none, some "Nope"⟩, ⟨some ⟨-10000, 2⟩, some 1, none⟩] [] true
    (by decide)
  exact ⟨by decide, h.1, h.2⟩

theorem findRecord_head (h : List Nat) (c : Nat) (rest : List ImportRecord) :
    findRecord (⟨h, c⟩ :: rest) h = some ⟨h, c⟩ := by
  simp [findRecord, List.find?_cons]

/-- C5: the idempotency check of `import_csv` — when the content hash of the
inputs matches an existing `ImportRecord`: with `force = false` and a prior
imported count of at least one, the call returns immediately with
`skipped = true` and the prior count, leaving the whole state (records and
transaction store) unchanged; with `force = false` and a prior count of
zero, the stale record is deleted and the import re-runs; with
`force = true`, the record is deleted unconditionally and the import
re-runs. -/
theorem c5_dedup_protocol (s : ImportState) (f : List Nat) (rb : Option (List Nat))
    (force : Bool) (r : ImportRecord)
    (hfind : findRecord s.recs (computeHash f rb) = some r) :
    (force = false → 0 < r.imported_count →
      importCsvHead s f rb force = .skipped r.imported_count true s) ∧
    (force = false → r.imported_count = 0 →
      importCsvHead s f rb force =
        .rerun { s with recs := deleteRecord s.recs (computeHash f rb) }) ∧
    (force = true →
      importCsvHead s f rb force =
        .rerun { s with recs := deleteRecord s.recs (computeHash f rb) }) := by
  refine ⟨?_, ?_, ?_⟩
  · intro hf hc
    subst hf
    simp only [importCsvHead, hfind]
    simp [hc]
  · intro hf hc
    subst hf
    simp only [importCsvHead, hfind]
    simp [hc]
  · intro hf
    subst hf
    simp only [importCsvHead, hfind]
    simp

/-- Witness for C5: a state holding a record for the hash of the empty file
with prior count 3 is skipped untouched. -/
theorem c5_dedup_protocol_witness :
    findRecord [(⟨computeHash [] none, 3⟩ : ImportRecord)] (computeHash [] none) =
      some ⟨computeHash [] none, 3⟩ ∧
    importCsvHead ⟨[⟨computeHash [] none, 3⟩], cstore⟩ [] none false =
      .skipped 3 true ⟨[⟨computeHash [] none, 3⟩], cstore⟩ := by
  have hf : findRecord ([(⟨computeHash [] none, 3⟩ : ImportRecord)])
      (computeHash [] none) = some ⟨computeHash [] none, 3⟩ :=
    findRecord_head (computeHash [] none) 3 []
  exact ⟨hf,
    (c5_dedup_protocol ⟨[⟨computeHash [] none, 3⟩], cstore⟩ [] none false
      ⟨computeHash [] none, 3⟩ hf).1 rfl (by decide)⟩

theorem matchRule_eq_find (research : String → String → Bool)
    (revalid : String → Bool) (text : String) (rules : List Rule) :
    matchRule research revalid text rules =
      rules.find? (ruleFires research revalid text) := by
  induction rules with
  | nil => rfl
  | cons r rest ih =>
    obtain ⟨mt, mm, cat, necc⟩ := r
    rw [List.find?_cons]
    cases mm with
    | none => simpa [matchRule, ruleFires] using ih
    | some m =>
      by_cases hm : m = ""
      · subst hm; simpa [matchRule, ruleFires] using ih
      · simp only [matchRule, ruleFires, if_neg hm]
        split
        next hty =>
          cases hany : (keywordsOf m).any fun kw => containsCI text kw <;>
            simp [hany, ih]
        next hty =>
          cases hv : revalid m
          · simp [hv, ih]
          · cases hs : research m text <;> simp [hv, hs, ih]
        next h1 h2 =>
          simp [ih]

/-- C6: the Rule Matcher scans the rules in the given order and returns the
first rule satisfying its predicate (`List.find?` of the per-rule
predicate); a keyword rule fires exactly when ANY of its comma-separated
keywords is a case-insensitive substring of the text; a regex rule fires
exactly when its (non-empty) pattern is valid and matches case-insensitively
— an invalid pattern never fires, it is skipped rather than raising; and
when no rule fires the matcher returns `none`. -/
theorem c6_rule_matcher (research : String → String → Bool)
    (revalid : String → Bool) (text : String) (rules : List Rule) :
    (matchRule research revalid text rules =
      rules.find? (ruleFires research revalid text)) ∧
    (∀ m c n, ruleFires research revalid text ⟨some "keyword", some m, c, n⟩ =
      (keywordsOf m).any (fun kw => containsCI text kw)) ∧
    (∀ p c n, ruleFires research revalid text ⟨some "regex", some p, c, n⟩ =
      (!(p == "") && (revalid p && research p text))) ∧
    (matchRule research revalid text rules = none ↔
      ∀ r ∈ rules, ruleFires research revalid text r = false) := by
  refine ⟨matchRule_eq_find research revalid text rules, ?_, ?_, ?_⟩
  · intro m c n
    by_cases hm : m = ""
    · subst hm
      simp [ruleFires, show keywordsOf "" = [] from by decide]
    · simp [ruleFires, hm]
  · intro p c n
    by_cases hp : p = ""
    · subst hp; simp [ruleFires]
    · simp [ruleFires, hp]
  · rw [matchRule_eq_find research revalid text rules, List.find?_eq_none]
    constructor
    · intro h r hr
      simpa using h r hr
    · intro h r hr
      simpa using h r hr

theorem dropWhile_eq_self_of (p : Char → Bool) (l : List Char)
    (h : ∀ c ∈ l, p c = false) : l.dropWhile p = l := by
  cases l with
  | nil => rfl
  | cons a as => simp [List.dropWhile_cons, h a (List.mem_cons_self a as)]

theorem stripChars_eq_self (l : List Char) (h : ∀ c ∈ l, c.isWhitespace = false) :
    stripChars l = l := by
  unfold stripChars
  rw [dropWhile_eq_self_of _ l h,
      dropWhile_eq_self_of _ l.reverse (fun c hc => h c (List.mem_reverse.mp hc)),
      List.reverse_reverse]

theorem decomma_eq_self (l : List Char) (h : ∀ c ∈ l, c ≠ ',') : decomma l = l := by
  unfold decomma
  exact List.filter_eq_self.mpr (fun c hc => by simp [h c hc])

theorem decomma_no_comma (l : List Char) : ∀ c ∈ decomma l, c ≠ ',' := by
  intro c hc
  simpa using (List.mem_filter.mp hc).2

theorem mem_of_mem_decomma (l : List Char) (c : Char) (hc : c ∈ decomma l) : c ∈ l :=
  (List.mem_filter.mp hc).1

theorem decomma_idem (l : List Char) : decomma (decomma l) = decomma l :=
  decomma_eq_self _ (decomma_no_comma l)

theorem not_ws_of_digit_dot (c : Char) (h : (c.isDigit || c == '.') = true) :
    c.isWhitespace = false := by
  simp [Char.isWhitespace]
  rcases Decidable.em (c = ' ') with rfl | h1
  · simp at h
  · rcases Decidable.em (c = '\t') with rfl | h2
    · simp at h
    · rcases Decidable.em (c = '\r') with rfl | h3
      · simp at h
      · rcases Decidable.em (c = '\n') with rfl | h4
        · simp at h
        · simp [h1, h2, h3, h4]

theorem ne_comma_of_digit_dot (c : Char) (h : (c.isDigit || c == '.') = true) :
    c ≠ ',' := by
  intro he
  rw [he] at h
  exact absurd h (by decide)

theorem ne_open_of_digit_dot (c : Char) (h : (c.isDigit || c == '.') = true) :
    c ≠ '(' := by
  intro he
  rw [he] at h
  exact absurd h (by decide)

theorem ne_minus_of_digit_dot (c : Char) (h : (c.isDigit || c == '.') = true) :
    c ≠ '-' := by
  intro he
  rw [he] at h
  exact absurd h (by decide)

theorem ne_plus_of_digit_dot (c : Char) (h : (c.isDigit || c == '.') = true) :
    c ≠ '+' := by
  intro he
  rw [he] at h
  exact absurd h (by decide)

theorem parseDecimal_cons (c : Char) (rest : List Char)
    (hws : ∀ x ∈ (c :: rest), x.isWhitespace = false) :
    parseDecimal (c :: rest) =
      if c = '-' then (parseUnsigned rest).map (fun d => ⟨-d.mant, d.exp⟩)
      else if c = '+' then parseUnsigned rest else parseUnsigned (c :: rest) := by
  simp only [parseDecimal]
  rw [stripChars_eq_self _ hws]

theorem parseAmount_decomma (l : List Char) (h : ∀ c ∈ l, c.isWhitespace = false) :
    parseAmount l = parseAmount (decomma l) := by
  simp only [parseAmount]
  rw [stripChars_eq_self l h,
      stripChars_eq_self (decomma l) (fun c hc => h c (mem_of_mem_decomma l c hc)),
      decomma_idem]

theorem parseAmount_numeral (X : List Char) (hX : isNumeralChars X = true) :
    parseAmount X = parseUnsigned X := by
  obtain ⟨hne, hall⟩ : (X.isEmpty = false) ∧ ∀ c ∈ X, (c.isDigit || c == '.') = true := by
    simpa [isNumeralChars, List.all_eq_true] using hX
  have hnows : ∀ c ∈ X, c.isWhitespace = false :=
    fun c hc => not_ws_of_digit_dot c (hall c hc)
  have hnocomma : ∀ c ∈ X, c ≠ ',' :=
    fun c hc => ne_comma_of_digit_dot c (hall c hc)
  simp only [parseAmount]
  rw [stripChars_eq_self X hnows, decomma_eq_self X hnocomma]
  cases X with
  | nil => simp at hne
  | cons x xs =>
    have hx := hall x (List.mem_cons_self x xs)
    rw [if_neg (fun hcond => by
      have : x = '(' := by simpa using hcond.1
      exact ne_open_of_digit_dot x hx this)]
    rw [parseDecimal_cons x xs hnows,
        if_neg (ne_minus_of_digit_dot x hx), if_neg (ne_plus_of_digit_dot x hx)]

theorem parseAmount_parens (X : List Char) (v : Decimal)
    (hX : isNumeralChars X = true) (hv : parseAmount X = some v) :
    parseAmount ('(' :: X ++ [')']) = some ⟨-v.mant, v.exp⟩ := by
  obtain ⟨hne, hall⟩ : (X.isEmpty = false) ∧ ∀ c ∈ X, (c.isDigit || c == '.') = true := by
    simpa [isNumeralChars, List.all_eq_true] using hX
  have hnows : ∀ c ∈ X, c.isWhitespace = false :=
    fun c hc => not_ws_of_digit_dot c (hall c hc)
  have hall2 : ∀ c ∈ ('(' :: X ++ [')']), c.isWhitespace = false := by
    intro c hc
    rcases List.mem_cons.mp hc with rfl | hc2
    · decide
    · rcases List.mem_append.mp hc2 with hc3 | hc4
      · exact hnows c hc3
      · rcases List.mem_singleton.mp hc4 with rfl
        decide
  have hcomma2 : ∀ c ∈ ('(' :: X ++ [')']), c ≠ ',' := by
    intro c hc
    rcases List.mem_cons.mp hc with rfl | hc2
    · decide
    · rcases List.mem_append.mp hc2 with hc3 | hc4
      · exact ne_comma_of_digit_dot c (hall c hc3)
      · rcases List.mem_singleton.mp hc4 with rfl
        decide
  have hlast : ('(' :: X ++ [')']).getLast? = some ')' := by
    rw [show '(' :: X ++ [')'] = ('(' :: X) ++ [')'] from rfl, List.getLast?_concat]
  simp only [parseAmount]
  rw [stripChars_eq_self _ hall2, decomma_eq_self _ hcomma2]
  rw [if_pos ⟨rfl, hlast⟩]
  have hdrop : ('(' :: X ++ [')']).drop 1 = X ++ [')'] := rfl
  rw [hdrop, List.dropLast_concat]
  have hws3 : ∀ c ∈ ('-' :: X), c.isWhitespace = false := by
    intro c hc
    rcases List.mem_cons.mp hc with rfl | hc2
    · decide
    · exact hnows c hc2
  rw [parseDecimal_cons '-' X hws3, if_pos rfl]
  rw [parseAmount_numeral X hX] at hv
  rw [hv]
  rfl

/-- C7: amount parsing strips thousands-separator commas (for
whitespace-free numeric strings, parsing a string and parsing its
comma-free form agree), accounting parentheses negate the enclosed
unsigned numeral (`"(123.45)"` parses to `-123.45`), and the value
normalized by the transaction store is a fixed-point decimal with exactly
two decimal digits. -/
theorem c7_amount_parsing :
    (∀ l : List Char, (∀ c ∈ l, c.isWhitespace = false) →
      parseAmount l = parseAmount (decomma l)) ∧
    (∀ (X : List Char) (v : Decimal), isNumeralChars X = true →
      parseAmount X = some v →
      parseAmount ('(' :: X ++ [')']) = some ⟨-v.mant, v.exp⟩) ∧
    parseAmount "(123.45)".data = some ⟨-12345, 2⟩ ∧
    (∀ a : Decimal, normalizeDecimal a = ⟨quantizeCents a, 2⟩ ∧
      (normalizeDecimal a).exp = 2) :=
  ⟨parseAmount_decomma, parseAmount_parens, by decide, fun a => ⟨rfl, rfl⟩⟩

/-- Witness for C7 at `"1,234.50"` (comma stripping) and `"123.45"`
(parenthesised negation). -/
theorem c7_amount_parsing_witness :
    (∀ c ∈ "1,234.50".data, c.isWhitespace = false) ∧
    parseAmount "1,234.50".data = parseAmount (decomma "1,234.50".data) ∧
    isNumeralChars "123.45".data = true ∧
    parseAmount "123.45".data = some ⟨12345, 2⟩ ∧
    parseAmount ('(' :: "123.45".data ++ [')']) = some ⟨-12345, 2⟩ :=
  ⟨by decide, c7_amount_parsing.1 _ (by decide), by decide, by decide,
   c7_amount_parsing.2.1 "123.45".data ⟨12345, 2⟩ (by decide) (by decide)⟩

/-- C8 counterexample: with an account named `Food` pre-existing in ledger
2, two successive importer get-or-create resolutions of `Food` against
ledger 1 each find the ledger-2 account first (`get_by_name` is a global
name lookup) and each create a fresh ledger-1 account — afterwards TWO
accounts share the pair (ledger 1, `Food`), violating the uniqueness
invariant. -/
theorem c8_uniqueness_counterexample :
    ((ensureAccount (ensureAccount ⟨[1, 2], [⟨1, "Food", "EXPENSE", 2⟩], 2, [], 1⟩
        "Food" "EXPENSE" 1).1 "Food" "EXPENSE" 1).1.accounts.countP
      (fun a => a.name == "Food" && a.ledgerID == 1)) = 2 := by decide

/-- C8 (amended): the cross-ledger half of the claim holds — the account
returned by get-or-create always belongs to the target ledger, and when the
name is found only under a different ledger a brand-new account is created
in the target ledger (fresh primary key, appended to the store) rather than
reusing the other ledger's account. The `(ledger, name)` uniqueness half is
false: lookup is by name only and creation is unconditional, so repeated
resolutions can create duplicate `(ledger, name)` pairs. -/
theorem c8_ledger_scoping_amended (st : Store) (nm fb : String) (l : Nat) :
    ((ensureAccount st nm fb l).2.ledgerID = l) ∧
    (∀ acc, getByName st nm = some acc → acc.ledgerID ≠ l →
      (ensureAccount st nm fb l).2.accountID = st.nextAcct ∧
      (ensureAccount st nm fb l).1.accounts =
        st.accounts ++ [(ensureAccount st nm fb l).2]) := by
  constructor
  · simp only [ensureAccount]
    cases hf : getByName st nm with
    | none => rfl
    | some acc =>
      by_cases hl : acc.ledgerID = l
      · show (if acc.ledgerID = l then (st, acc) else createAccount st nm fb l).2.ledgerID = l
        rw [if_pos hl]; exact hl
      · show (if acc.ledgerID = l then (st, acc) else createAccount st nm fb l).2.ledgerID = l
        rw [if_neg hl]
        rfl
  · intro acc hf hl
    simp only [ensureAccount, hf]
    rw [if_neg hl]
    exact ⟨rfl, rfl⟩

/-- Witness for the amended C8: resolving `Food` for ledger 1 while it only
exists in ledger 2 yields a fresh ledger-1 account. -/
theorem c8_ledger_scoping_amended_witness :
    getByName ⟨[1, 2], [⟨1, "Food", "EXPENSE", 2⟩], 2, [], 1⟩ "Food" =
      some ⟨1, "Food", "EXPENSE", 2⟩ ∧
    (ensureAccount ⟨[1, 2], [⟨1, "Food", "EXPENSE", 2⟩], 2, [], 1⟩ "Food" "EXPENSE" 1).2.ledgerID = 1 ∧
    (ensureAccount ⟨[1, 2], [⟨1, "Food", "EXPENSE", 2⟩], 2, [], 1⟩ "Food" "EXPENSE" 1).2.accountID = 2 := by
  have h := c8_ledger_scoping_amended ⟨[1, 2], [⟨1, "Food", "EXPENSE", 2⟩], 2, [], 1⟩
    "Food" "EXPENSE" 1
  exact ⟨by decide, h.1, (h.2 ⟨1, "Food", "EXPENSE", 2⟩ (by decide) (by decide)).1⟩

/-- C9 counterexample: with two equal-date transactions (ids 1 and 2, in
ledgers 1 and 2), an unfiltered listing returns `[t1x, t2x]` — the tie is
kept in insertion order (OLDEST id first, because Python's stable
`sorted(..., reverse=True)` preserves the original order of equal keys),
not `[t2x, t1x]` as "most recent transaction id first" claims; and the
result mixes both ledgers, so it is not "all transactions for the ledger"
either. -/
theorem c9_listing_counterexample :
    listTransactions st9 none none none none = [t1x, t2x] ∧
    listTransactions st9 none none none none ≠ [t2x, t1x] ∧
    t1x.date = t2x.date ∧ t1x.id < t2x.id ∧ t2x.ledger ≠ t1x.ledger := by decide

/-- C9 (amended): each filter is independently optional; the date range is
inclusive at both ends; the account filter keeps a transaction exactly when
ANY of its splits references the account; the tag filter is an exact name
match; no filter returns every stored transaction (across ALL ledgers — the
listing never scopes by ledger); results are sorted by date descending with
ties kept in insertion order (oldest transaction id first). -/
theorem filter_orderedInsert (d : ℤ) (a : Transaction) (l : List Transaction) :
    (List.orderedInsert dateGe a l).filter (fun t => t.date == d) =
      if a.date = d then a :: l.filter (fun t => t.date == d)
      else l.filter (fun t => t.date == d) := by
  induction l with
  | nil =>
    by_cases h : a.date = d <;> simp [List.orderedInsert, h]
  | cons b l ih =>
    rw [List.orderedInsert]
    by_cases hab : dateGe a b
    · rw [if_pos hab]
      by_cases h : a.date = d <;> simp [List.filter_cons, h]
    · rw [if_neg hab]
      have hlt : a.date < b.date := not_le.mp hab
      by_cases h : a.date = d
      · have hb : ¬ b.date = d := by omega
        simp [List.filter_cons, hb, h, ih]
      · simp [List.filter_cons, h, ih]

theorem filter_insertionSort (d : ℤ) (l : List Transaction) :
    (l.insertionSort dateGe).filter (fun t => t.date == d) =
      l.filter (fun t => t.date == d) := by
  induction l with
  | nil => rfl
  | cons a l ih =>
    rw [List.insertionSort, filter_orderedInsert]
    by_cases h : a.date = d
    · rw [if_pos h, ih, List.filter_cons]
      simp [h]
    · rw [if_neg h, ih, List.filter_cons]
      simp [h]

theorem listTransactions_filter_chain (st : Store) (df dt : Option ℤ)
    (aid : Option Nat) (tg : Option String) :
    listTransactions st df dt aid tg =
      (st.txs.filter (specFilter df dt aid tg)).insertionSort dateGe := by
  unfold listTransactions specFilter
  cases df <;> cases dt <;> cases aid <;> cases tg <;>
    simp [List.filter_filter, Bool.and_assoc, Bool.and_comm, Bool.and_left_comm]

theorem c9_listing_amended (st : Store) (df dt : Option ℤ) (aid : Option Nat)
    (tg : Option String) :
    (∀ t, t ∈ listTransactions st df dt aid tg ↔
      (t ∈ st.txs ∧
       (∀ d, df = some d → d ≤ t.date) ∧
       (∀ d, dt = some d → t.date ≤ d) ∧
       (∀ a, aid = some a → ∃ s ∈ t.splits, s.account = a) ∧
       (∀ g, tg = some g → g ∈ t.tags))) ∧
    (listTransactions st none none none none).Perm st.txs ∧
    List.Sorted dateGe (listTransactions st df dt aid tg) ∧
    (∀ d : ℤ, (listTransactions st df dt aid tg).filter (fun t => t.date == d) =
      (st.txs.filter (specFilter df dt aid tg)).filter (fun t => t.date == d)) := by
  refine ⟨?_, ?_, ?_, ?_⟩
  · intro t
    unfold listTransactions
    rw [(List.perm_insertionSort dateGe _).mem_iff]
    cases df <;> cases dt <;> cases aid <;> cases tg <;>
      simp [List.mem_filter, and_assoc] <;> tauto
  · unfold listTransactions
    exact List.perm_insertionSort dateGe st.txs
  · unfold listTransactions
    exact List.sorted_insertionSort dateGe _
  · intro d
    rw [listTransactions_filter_chain]
    exact filter_insertionSort d _

/-- Witness for the amended C9 on the concrete two-transaction store: the
membership characterization with a tag filter, the no-filter permutation,
and the tie-break instance — the date-5 subsequence of the unfiltered
listing equals the store's insertion-order subsequence at date 5. -/
theorem c9_listing_amended_witness :
    (t2x ∈ listTransactions st9 none none none (some "food") ↔
      (t2x ∈ st9.txs ∧
       (∀ d, (none : Option ℤ) = some d → d ≤ t2x.date) ∧
       (∀ d, (none : Option ℤ) = some d → t2x.date ≤ d) ∧
       (∀ a, (none : Option Nat) = some a → ∃ s ∈ t2x.splits, s.account = a) ∧
       (∀ g, (some "food" : Option String) = some g → g ∈ t2x.tags))) ∧
    (listTransactions st9 none none none none).Perm st9.txs ∧
    (listTransactions st9 none none none none).filter (fun t => t.date == 5) =
      (st9.txs.filter (specFilter none none none none)).filter (fun t => t.date == 5) :=
  ⟨(c9_listing_amended st9 none none none (some "food")).1 t2x,
   (c9_listing_amended st9 none none none none).2.1,
   (c9_listing_amended st9 none none none none).2.2.2 5⟩

/-- C10 counterexample: at `f = b""`, `r = b""` the claimed hash collision
fails — an empty rules byte string is falsy, so importing file `f` with
rules `r = b""` hashes `f` alone, while importing the single file
`f ++ b"::RULES::" ++ r = b"::RULES::"` hashes the marker; the two SHA-256
digests differ, so the dedup layer does NOT treat these inputs as
identical. -/
theorem c10_hash_concat_counterexample :
    computeHash (([] : List Nat) ++ rulesMarker ++ []) none ≠
      computeHash [] (some []) := by decide

/-- C10 (amended): for every file byte string `f` and NON-EMPTY rules byte
string `r`, the content hash of importing the single file
`f ++ b"::RULES::" ++ r` with no rules equals the content hash of importing
file `f` together with rules `r` — the dedup layer treats these two
distinct inputs as identical content. (For empty `r` the rules are treated
as absent and the equality fails.) -/
theorem c10_hash_concat_amended (f r : List Nat) (hr : r ≠ []) :
    computeHash (f ++ rulesMarker ++ r) none = computeHash f (some r) := by
  have h2 : hashInput f (some r) = f ++ rulesMarker ++ r := by
    show (if r = [] then f else f ++ rulesMarker ++ r) = f ++ rulesMarker ++ r
    rw [if_neg hr]
  calc computeHash (f ++ rulesMarker ++ r) none
      = sha256 (f ++ rulesMarker ++ r) := rfl
    _ = sha256 (hashInput f (some r)) := by rw [h2]
    _ = computeHash f (some r) := rfl

/-- Witness for the amended C10 at one-byte inputs. -/
theorem c10_hash_concat_amended_witness :
    ([1] : List Nat) ≠ [] ∧
    computeHash ([0] ++ rulesMarker ++ [1]) none = computeHash [0] (some [1]) :=
  ⟨by decide, c10_hash_concat_amended [0] [1] (by decide)⟩

example : quantizeCents ⟨3, 3⟩ = 0 := by decide
example : quantizeCents ⟨15, 3⟩ = 2 := by decide
example : quantizeCents ⟨-5, 3⟩ = 0 := by decide
example : quantizeCents ⟨-15, 3⟩ = -2 := by decide
example : quantizeCents ⟨25, 3⟩ = 2 := by decide
example : quantizeCents ⟨10000, 2⟩ = 10000 := by decide
example : quantizeCents ⟨100, 0⟩ = 10000 := by decide
example : centsRepr 15000 = "150.00" := by decide
example : centsRepr (-5) = "-0.05" := by decide
example : sumDec [⟨3, 3⟩, ⟨3, 3⟩] = ⟨6, 3⟩ := by decide
